import Mathlib

/-!
Verification development for the mnemomind-angular ingestion pipeline and API.

The definitions below are a shallow embedding of the two ingestion scripts
(`Elastic Cloud HQ/index-in-elastic-cloud-old.py`, the "old" variant, and
`Elastic Cloud HQ/delete_index.py`, the "del" variant) and of the FastAPI
read endpoints in `api/main.py`.  Text is modelled as `List Char`; the
langchain `RecursiveCharacterTextSplitter` (as instantiated by the scripts,
with `keep_separator = True`, `strip_whitespace = True` and literal,
non-regex separators) is embedded in full.
-/

namespace MnemoMind

abbrev Str := List Char

/-- Python `str.strip()`: remove leading and trailing whitespace. -/
def stripChars (s : Str) : Str :=
  ((s.dropWhile Char.isWhitespace).reverse.dropWhile Char.isWhitespace).reverse

/-- langchain `TextSplitter._join_docs`: join the docs with the separator,
strip whitespace (`strip_whitespace` defaults to `True`), and return `none`
when the result is empty. -/
def joinDocs (docs : List Str) (sep : Str) : Option Str :=
  if stripChars (List.intercalate sep docs) = [] then none
  else some (stripChars (List.intercalate sep docs))

/-- The running total maintained by `TextSplitter._merge_splits`: the sum of
the split lengths plus one separator length per gap. -/
def totalOf (sepLen : Nat) (cd : List Str) : Nat :=
  (cd.map List.length).sum + sepLen * (cd.length - 1)

/-- The inner while-loop of `TextSplitter._merge_splits`: pop splits from the
front of `current_doc` while the retained total exceeds the overlap, or while
adding the next split (of length `dLen`) would still overflow the chunk size.
(The `cd = []` case is unreachable under the loop's invariant
`total = totalOf sepLen cd`; the Python loop indexes `current_doc[0]` there.) -/
def popOverlap (sepLen chunkSize overlap dLen : Nat) :
    List Str → Nat → List Str × Nat
  | [], total => ([], total)
  | x :: rest, total =>
      if total > overlap ∨ (total + dLen + sepLen > chunkSize ∧ total > 0) then
        popOverlap sepLen chunkSize overlap dLen rest
          (total - (x.length + if rest = [] then 0 else sepLen))
      else (x :: rest, total)

/-- Main loop of `TextSplitter._merge_splits`.  `docs` is the output
accumulator, `cd` is `current_doc`, `total` the running length total.  When
appending the next split would overflow the chunk size and `current_doc` is
non-empty, the current doc is flushed and the overlap-retention loop runs;
in every case the split is then appended and the total updated. -/
def mergeGo (sep : Str) (chunkSize overlap : Nat) :
    List Str → List Str → List Str → Nat → List Str
  | [], docs, cd, _ =>
      (match joinDocs cd sep with
       | some doc => docs ++ [doc]
       | none => docs)
  | d :: rest, docs, cd, total =>
      let dLen := d.length
      let sepLen := sep.length
      let s1 :=
        if total + dLen + (if cd = [] then 0 else sepLen) > chunkSize ∧ cd ≠ [] then
          let docsF :=
            match joinDocs cd sep with
            | some doc => docs ++ [doc]
            | none => docs
          let p := popOverlap sepLen chunkSize overlap dLen cd total
          (docsF, p.1, p.2)
        else (docs, cd, total)
      let cd2 := s1.2.1 ++ [d]
      let total2 := s1.2.2 + dLen + (if cd2.length > 1 then sepLen else 0)
      mergeGo sep chunkSize overlap rest s1.1 cd2 total2

/-- `TextSplitter._merge_splits`. -/
def mergeSplits (splits : List Str) (sep : Str) (chunkSize overlap : Nat) : List Str :=
  mergeGo sep chunkSize overlap splits [] [] 0

/-- `re.split` on a literal non-empty separator `s0 :: stail`: the text pieces
between non-overlapping leftmost occurrences of the separator.  `acc` holds
the piece being accumulated.  `fuel` only bounds the recursion depth (each
step consumes at least one character); callers pass the text length, so the
fuel-exhausted arm is unreachable. -/
def splitPiecesGo (s0 : Char) (stail : Str) : Nat → Str → Str → List Str
  | _, [], acc => [acc.reverse]
  | 0, c :: rest, acc => [acc.reverse ++ c :: rest]
  | fuel + 1, c :: rest, acc =>
      if (s0 :: stail).isPrefixOf (c :: rest) then
        acc.reverse :: splitPiecesGo s0 stail fuel (rest.drop stail.length) []
      else
        splitPiecesGo s0 stail fuel rest (c :: acc)

/-- langchain `_split_text_with_regex` with `keep_separator = True`: split on
the literal separator and re-attach each separator occurrence to the front of
the following piece; the empty separator splits into single characters
(`list(text)`); empty pieces are filtered out. -/
def splitTextWithSep (sep : Str) (text : Str) : List Str :=
  let splits :=
    match sep with
    | [] => text.map (fun c => [c])
    | s0 :: st =>
        match splitPiecesGo s0 st text.length text [] with
        | [] => []
        | p0 :: rest => p0 :: rest.map (fun p => sep ++ p)
  splits.filter (fun s => !s.isEmpty)

/-- `re.search` with an escaped (literal) pattern: substring occurrence. -/
def containsSub (sep : Str) : Str → Bool
  | [] => sep.isPrefixOf []
  | c :: rest => sep.isPrefixOf (c :: rest) || containsSub sep rest

/-- The separator-selection loop at the top of
`RecursiveCharacterTextSplitter._split_text`: the chosen separator is the
first empty separator or the first one occurring in the text (with the
remaining separators kept for recursion); otherwise the last separator of the
list (`defaultSep`) with no recursion separators. -/
def chooseSep (text defaultSep : Str) : List Str → Str × List Str
  | [] => (defaultSep, [])
  | s :: rest =>
      if s = [] then ([], [])
      else if containsSub s text then (s, rest)
      else chooseSep text defaultSep rest

/-- The split-processing loop of `RecursiveCharacterTextSplitter._split_text`:
splits shorter than the chunk size are batched into `good` and merged (with
separator `""`, since `keep_separator = True`); a split of at least the chunk
size first flushes the batch, then is emitted raw when no further separators
remain, or split recursively via `recurse?`. -/
def splitLoop (chunkSize overlap : Nat) (recurse? : Option (Str → List Str)) :
    List Str → List Str → List Str
  | [], good => if good = [] then [] else mergeSplits good [] chunkSize overlap
  | s :: rest, good =>
      if s.length < chunkSize then
        splitLoop chunkSize overlap recurse? rest (good ++ [s])
      else
        (if good = [] then [] else mergeSplits good [] chunkSize overlap) ++
        (match recurse? with
         | none => [s]
         | some f => f s) ++
        splitLoop chunkSize overlap recurse? rest []

/-- `RecursiveCharacterTextSplitter._split_text` (the `[]` separator-list case
is unreachable: Python would fail on `separators[-1]`).  The recursion is on
the strictly shrinking `new_separators` list; `fuel` bounds its length (each
recursion drops at least one separator), and callers pass the separator-list
length, so the fuel-exhausted arm is unreachable. -/
def splitTextRecFuel (chunkSize overlap : Nat) : Nat → List Str → Str → List Str
  | _, [], text => [text]
  | 0, _ :: _, text => [text]
  | fuel + 1, s :: seps, text =>
      let p := chooseSep text ((s :: seps).getLastD []) (s :: seps)
      let splits := splitTextWithSep p.1 text
      let recurse? : Option (Str → List Str) :=
        if p.2 = [] then none
        else some (fun t => splitTextRecFuel chunkSize overlap fuel p.2 t)
      splitLoop chunkSize overlap recurse? splits []

/-- `RecursiveCharacterTextSplitter._split_text`. -/
def splitTextRec (chunkSize overlap : Nat) (separators : List Str)
    (text : Str) : List Str :=
  splitTextRecFuel chunkSize overlap separators.length separators text

/-- The separator list configured in `index-in-elastic-cloud-old.py`. -/
def oldSeparators : List Str :=
  ["\n\n".data, "\n".data, " ".data, "".data, ".".data, ",".data, ";".data,
   ":".data, "(".data, ")".data, "[".data, "]".data, "\x7b".data, "\x7d".data]

/-- langchain's default separator list, used by `delete_index.py` (which
passes no `separators` argument). -/
def defaultSeparators : List Str := ["\n\n".data, "\n".data, " ".data, "".data]

/-- `text_splitter.split_text` as configured in `index-in-elastic-cloud-old.py`
(`RecursiveCharacterTextSplitter.split_text` is `_split_text(text, separators)`). -/
def splitTextOld (chunkSize overlap : Nat) (text : Str) : List Str :=
  splitTextRec chunkSize overlap oldSeparators text

/-- `text_splitter.split_text` as configured in `delete_index.py`. -/
def splitTextDel (chunkSize overlap : Nat) (text : Str) : List Str :=
  splitTextRec chunkSize overlap defaultSeparators text

/-! ## Bulk actions and per-file processing -/

/-- The `_op_type` of a bulk action; `elasticsearch.helpers` defaults a
missing `_op_type` key to `index`. -/
inductive OpType where
  | index
  | create
  | update
  | delete
deriving Repr, DecidableEq

/-- A bulk action: target collection (`_index`), optional document identifier
(`_id`; the store auto-assigns one when absent), and the `_source` payload. -/
structure BulkAction (σ : Type) where
  op : OpType
  esIndex : String
  docId : Option String
  source : σ
deriving Repr, DecidableEq

/-- Python `str.isspace()`: non-empty and all-whitespace. -/
def pyIsSpace (s : String) : Bool :=
  !(s == "") && s.data.all Char.isWhitespace

/-- The chunk-call oracle: `embed i chunk` models the
`embedding_model.encode(chunk)` call for chunk number `i` (enumerate index);
`.error` models the call raising, `.ok v` the returned vector (numeric
contents abstracted to integers; only the list structure matters here). -/
abbrev Embed := Nat → String → Except Unit (List Int)

/-- `_source` of a chunk action in `index-in-elastic-cloud-old.py`. -/
structure SourceOld where
  file_name : String
  path : String
  content : String
  content_type : String
  chunk_text : Option String
  chunk_vector : Option (List Int)
  timestamp : String
deriving Repr, DecidableEq

/-- The per-file inputs of the old-variant loop body: configured index name,
file name, `str(relative_path)`, `str(relative_path / file_name)`, the
full content for ES, the content type, `str(file_path.stat().st_mtime)`
(modelled as an opaque string), and the wall-clock timestamp string. -/
structure FileCtxOld where
  esIndexName : String
  file_name : String
  relPath : String
  relPathFull : String
  fullContent : String
  content_type : String
  mtime : String
  now : String
deriving Repr, DecidableEq

/-- `chunk_id = f"chunk-\x7brelative_path / file_name\x7d-\x7bmtime\x7d-\x7bi\x7d"`. -/
def chunkId (relPathFull mtime : String) (i : Nat) : String :=
  "chunk-" ++ relPathFull ++ "-" ++ mtime ++ "-" ++ toString i

/-- The chunk action built at lines 267-280 of
`index-in-elastic-cloud-old.py`: explicit `_id`. -/
def mkChunkActionOld (ctx : FileCtxOld) (i : Nat) (chunk : String)
    (vector : List Int) : BulkAction SourceOld :=
  { op := .index
    esIndex := ctx.esIndexName
    docId := some (chunkId ctx.relPathFull ctx.mtime i)
    source :=
      { file_name := ctx.file_name
        path := ctx.relPath
        content := ctx.fullContent
        content_type := ctx.content_type
        chunk_text := some chunk
        chunk_vector := some vector
        timestamp := ctx.now } }

/-- The metadata-only action built at lines 221-236 of
`index-in-elastic-cloud-old.py` for whitespace-only text (`chunk_text` and
`chunk_vector` are `None`). -/
def mkMetaActionOld (ctx : FileCtxOld) : BulkAction SourceOld :=
  { op := .index
    esIndex := ctx.esIndexName
    docId := some ("file-" ++ ctx.relPathFull ++ "-" ++ ctx.mtime)
    source :=
      { file_name := ctx.file_name
        path := ctx.relPath
        content := ctx.fullContent
        content_type := ctx.content_type
        chunk_text := none
        chunk_vector := none
        timestamp := ctx.now } }

/-- The chunk loop of `index-in-elastic-cloud-old.py` (lines 256-287):
empty/whitespace chunks are skipped; a chunk whose embedding call raises is
logged and skipped; otherwise an action with a chunk-specific `_id` is
appended.  `i` is the enumerate counter. -/
def processChunksOld (ctx : FileCtxOld) (embed : Embed) :
    List String → Nat → List (BulkAction SourceOld)
  | [], _ => []
  | chunk :: rest, i =>
      if chunk == "" || pyIsSpace chunk then
        processChunksOld ctx embed rest (i + 1)
      else
        match embed i chunk with
        | .error _ => processChunksOld ctx embed rest (i + 1)
        | .ok vector =>
            mkChunkActionOld ctx i chunk vector :: processChunksOld ctx embed rest (i + 1)

/-- Per-file processing of `index-in-elastic-cloud-old.py` (lines 193-288)
for a file of content type `"text"` (where `text_for_chunking` is the raw
content itself): an empty read is dropped at the `not full_content_raw`
check; whitespace-only text takes the metadata-only branch; otherwise the
text is chunked (chunk_size 1000, chunk_overlap 150) and each chunk
embedded. -/
def processTextFileOld (ctx : FileCtxOld) (embed : Embed) (rawText : String) :
    List (BulkAction SourceOld) :=
  if rawText == "" then []
  else if rawText == "" || pyIsSpace rawText then [mkMetaActionOld ctx]
  else if (splitTextOld 1000 150 rawText.data).map List.asString = [] then []
  else processChunksOld ctx embed
    ((splitTextOld 1000 150 rawText.data).map List.asString) 0

/-- Per-file processing of the old variant together with its control flow:
the second component records whether the loop body runs to its end and so
reaches the batch-size check at line 291.  Every early `continue` — empty
read (line 197), the whitespace metadata branch (line 237, which appends an
action first), zero chunks (line 246) — bypasses that check. -/
def processTextFileOldChecked (ctx : FileCtxOld) (embed : Embed)
    (rawText : String) : List (BulkAction SourceOld) × Bool :=
  if rawText == "" then ([], false)
  else if rawText == "" || pyIsSpace rawText then ([mkMetaActionOld ctx], false)
  else if (splitTextOld 1000 150 rawText.data).map List.asString = [] then ([], false)
  else (processChunksOld ctx embed
    ((splitTextOld 1000 150 rawText.data).map List.asString) 0, true)

/-- `_source` of a chunk action in `delete_index.py`. -/
structure SourceDel where
  user_id : String
  file_name : String
  chunk_text : String
  chunk_vector : List Int
deriving Repr, DecidableEq

/-- The action dict built at lines 159-167 of `delete_index.py`: it has no
`_id` key (the store auto-assigns identifiers) and no `_op_type` key (the
bulk helper defaults to `index`); `ES_INDEX_NAME` is the literal
`"rag_documents"`. -/
def mkChunkActionDel (userId fileName chunk : String) (vector : List Int) :
    BulkAction SourceDel :=
  { op := .index
    esIndex := "rag_documents"
    docId := none
    source :=
      { user_id := userId
        file_name := fileName
        chunk_text := chunk
        chunk_vector := vector } }

/-- The chunk loop of `delete_index.py` (lines 155-170). -/
def processChunksDel (userId fileName : String) (embed : Embed) :
    List String → Nat → List (BulkAction SourceDel)
  | [], _ => []
  | chunk :: rest, i =>
      if chunk == "" || pyIsSpace chunk then
        processChunksDel userId fileName embed rest (i + 1)
      else
        match embed i chunk with
        | .error _ => processChunksDel userId fileName embed rest (i + 1)
        | .ok vector =>
            mkChunkActionDel userId fileName chunk vector ::
              processChunksDel userId fileName embed rest (i + 1)

/-- Per-file processing of `delete_index.py` (lines 141-170): empty or
whitespace-only extracted text is skipped (zero actions); otherwise the text
is chunked (chunk_size 1000, chunk_overlap 150, default separators) and each
chunk embedded. -/
def processFileDel (userId fileName : String) (embed : Embed) (text : String) :
    List (BulkAction SourceDel) :=
  if text == "" || pyIsSpace text then []
  else if (splitTextDel 1000 150 text.data).map List.asString = [] then []
  else processChunksDel userId fileName embed
    ((splitTextDel 1000 150 text.data).map List.asString) 0

/-- Per-file processing of `delete_index.py` together with its control flow:
the second component records whether the loop body runs to its end and so
reaches the batch-size check at line 173.  The early `continue`s —
whitespace-only text (line 143) and zero chunks (line 149) — bypass it. -/
def processFileDelChecked (userId fileName : String) (embed : Embed)
    (text : String) : List (BulkAction SourceDel) × Bool :=
  if text == "" || pyIsSpace text then ([], false)
  else if (splitTextDel 1000 150 text.data).map List.asString = [] then ([], false)
  else (processChunksDel userId fileName embed
    ((splitTextDel 1000 150 text.data).map List.asString) 0, true)

/-! ## PDF text extraction -/

/-- The page loop of `extract_text_from_pdf` (old variant, lines 81-84) and
`parse_pdf` (del variant, lines 40-43).  Each page's `extract_text()` call is
an `Except` value, `.error` when the call raises.  The `try` block wraps the
whole loop, so a raising page ends the loop and the text accumulated so far
is returned. -/
def extractPagesGo : List (Except Unit String) → String → String
  | [], acc => acc
  | .error _ :: _, acc => acc
  | .ok p :: rest, acc =>
      extractPagesGo rest (if p == "" then acc else acc ++ p ++ "\n")

/-- `extract_text_from_pdf` / `parse_pdf` on an already-decrypted reader. -/
def extractTextFromPdf (pages : List (Except Unit String)) : String :=
  extractPagesGo pages ""

/-! ## Bulk batching -/

/-- Driver state: the `all_actions` buffer and the list of batches handed to
`bulk(...)` so far (in submission order). -/
structure RunState (σ : Type) where
  buffer : List (BulkAction σ)
  flushes : List (List (BulkAction σ))
deriving Repr, DecidableEq

/-- One file step of the old variant's driver (lines 185-318 of
`index-in-elastic-cloud-old.py`).  `file.1` holds the actions the loop body
appends to `all_actions` for this file and `file.2` whether the body reaches
the batch-size check at line 291 — a file handled by an early `continue`
(including the whitespace metadata branch at line 237) appends its actions
but bypasses the check.  When the check runs and the buffer holds at least
500 actions, a bulk request is made and `all_actions` is reset on every
outcome (the `try` body and both `except` handlers all clear it). -/
def stepFileOld (batchSize : Nat) (st : RunState σ)
    (file : List (BulkAction σ) × Bool) : RunState σ :=
  if file.2 = true ∧ (st.buffer ++ file.1).length ≥ batchSize then
    { buffer := [], flushes := st.flushes ++ [st.buffer ++ file.1] }
  else
    { buffer := st.buffer ++ file.1, flushes := st.flushes }

/-- One file step of the del variant's driver (lines 122-190 of
`delete_index.py`): as in the old variant with threshold 1000 and `file.2`
recording whether the body reaches the line-173 check (the `continue`s at
lines 143 and 149 bypass it), except that `all_actions = []` is executed
only inside the `try` body — when the bulk call raises (`raises` true for
that flush, indexed by the number of earlier flushes), the buffer is left
holding the batch. -/
def stepFileDel (batchSize : Nat) (raises : Nat → Bool) (st : RunState σ)
    (file : List (BulkAction σ) × Bool) : RunState σ :=
  if file.2 = true ∧ (st.buffer ++ file.1).length ≥ batchSize then
    if raises st.flushes.length then
      { buffer := st.buffer ++ file.1,
        flushes := st.flushes ++ [st.buffer ++ file.1] }
    else
      { buffer := [], flushes := st.flushes ++ [st.buffer ++ file.1] }
  else
    { buffer := st.buffer ++ file.1, flushes := st.flushes }

/-- The old variant's driver over the per-file action lists, including the
final-batch flush (lines 321-341: submitted only when `all_actions` is
non-empty; the buffer is not reset afterwards, the process ends). -/
def runOld (batchSize : Nat)
    (files : List (List (BulkAction σ) × Bool)) : RunState σ :=
  files.foldl (stepFileOld batchSize) ⟨[], []⟩

/-- All batches the old variant submits to `bulk(...)`, mid-run flushes plus
the final flush. -/
def submissionsOld (batchSize : Nat)
    (files : List (List (BulkAction σ) × Bool)) :
    List (List (BulkAction σ)) :=
  let st := runOld batchSize files
  st.flushes ++ (if st.buffer.isEmpty then [] else [st.buffer])

/-- The del variant's driver over the per-file action lists. -/
def runDel (batchSize : Nat) (raises : Nat → Bool)
    (files : List (List (BulkAction σ) × Bool)) : RunState σ :=
  files.foldl (stepFileDel batchSize raises) ⟨[], []⟩

/-- All batches the del variant submits to `bulk(...)` (lines 192-208: the
final batch is submitted when non-empty). -/
def submissionsDel (batchSize : Nat) (raises : Nat → Bool)
    (files : List (List (BulkAction σ) × Bool)) :
    List (List (BulkAction σ)) :=
  let st := runDel batchSize raises files
  st.flushes ++ (if st.buffer.isEmpty then [] else [st.buffer])

/-- The whole `delete_index.py` ingestion run on extracted texts: file `k`
with name `(files.get! k).1` and extracted text `(files.get! k).2` is chunked
and embedded with the call oracle `embed k`, and the resulting actions are
batched (threshold 1000) and bulk-submitted. -/
def delPipelineSubmissions (userId : String) (embed : Nat → Embed)
    (raises : Nat → Bool) (files : List (String × String)) :
    List (List (BulkAction SourceDel)) :=
  submissionsDel 1000 raises
    (files.enum.map (fun kf =>
      processFileDelChecked userId kf.2.1 (embed kf.1) kf.2.2))

/-! ## HTTP read endpoints (api/main.py) -/

/-- A document in the external store: identifier plus the `_source` fields
the endpoints read (absent fields are `none`, matching `dict.get`). -/
structure Hit where
  hitId : String
  file_name : Option String
  path : Option String
  content : Option String
deriving Repr, DecidableEq

/-- Modelled from the spec: the external Document Store's search API
(`es.search` with a `match_all` query) returns at most `size` hits. -/
def esSearch (store : List Hit) (size : Nat) : List Hit :=
  store.take size

/-- One element of the list returned by `GET /api/files`: exactly the id,
file name and path. -/
structure FileEntry where
  entryId : String
  file_name : String
  path : String
deriving Repr, DecidableEq

/-- `get_all_files` (api/main.py lines 95-116): `es.search` with size 1000,
each hit mapped to id / file_name / path with `""` defaults. -/
def get_all_files (store : List Hit) : List FileEntry :=
  (esSearch store 1000).map (fun h =>
    { entryId := h.hitId
      file_name := h.file_name.getD ""
      path := h.path.getD "" })

/-- Modelled from the spec: `es.get` returns the stored document with the
given identifier and raises `NotFoundError` (here `.error`) when there is
none. -/
def esGet (store : List Hit) (docId : String) : Except Unit Hit :=
  match store.find? (fun h => h.hitId == docId) with
  | some h => .ok h
  | none => .error ()

/-- An HTTP response: status code and body. -/
structure ApiResp where
  status : Nat
  body : String
deriving Repr, DecidableEq

/-- `get_file_content` (api/main.py lines 86-93): the path parameter is
URL-decoded (`unquote`, modelled by `decode`), the document fetched with
`es.get`, and any exception — including the store's not-found error — is
mapped to an HTTP 500 response. -/
def get_file_content (decode : String → String) (store : List Hit)
    (fileId : String) : ApiResp :=
  match esGet store (decode fileId) with
  | .ok h => { status := 200, body := h.content.getD "Content not found" }
  | .error _ => { status := 500, body := "error" }

/-- A helper observable: whether an embedding call succeeded. -/
def embedOk (e : Except Unit (List Int)) : Bool :=
  match e with
  | .ok _ => true
  | .error _ => false

/-- A sample per-file context used in concrete witnesses. -/
def sampleCtx : FileCtxOld :=
  { esIndexName := "rag_documents"
    file_name := "a.txt"
    relPath := "sub"
    relPathFull := "sub/a.txt"
    fullContent := "hello world"
    content_type := "text"
    mtime := "1700000000.0"
    now := "2024-01-01T00:00:00Z" }

/-- A sample del-variant action used in concrete witnesses. -/
def delAct : BulkAction SourceDel := mkChunkActionDel "u" "f" "c" []

/-- A full batch of 1000 sample actions (the del variant's threshold). -/
def bigBatch : List (BulkAction SourceDel) := List.replicate 1000 delAct

/-- A sample stored document used in concrete witnesses. -/
def sampleHit : Hit :=
  { hitId := "doc1", file_name := some "a.txt", path := some "sub",
    content := some "hello" }

/-! ## Lemmas about the merge loop -/

theorem totalOf_nil (sepLen : Nat) : totalOf sepLen [] = 0 := by
  simp [totalOf]

theorem totalOf_cons (sepLen : Nat) (x : Str) (rest : List Str) :
    totalOf sepLen (x :: rest) =
      x.length + (if rest = [] then 0 else sepLen) + totalOf sepLen rest := by
  cases rest with
  | nil => simp [totalOf]
  | cons y t =>
      simp only [totalOf, List.map_cons, List.sum_cons, List.length_cons,
        if_neg (List.cons_ne_nil y t), Nat.add_sub_cancel]
      have hm : sepLen * (t.length + 1) = sepLen * t.length + sepLen :=
        Nat.mul_succ sepLen t.length
      omega

theorem totalOf_append_single (sepLen : Nat) (cd : List Str) (d : Str) :
    totalOf sepLen (cd ++ [d]) =
      totalOf sepLen cd + d.length + (if cd = [] then 0 else sepLen) := by
  induction cd with
  | nil => simp [totalOf]
  | cons x rest ih =>
      rw [List.cons_append, totalOf_cons, ih, totalOf_cons]
      have h1 : rest ++ [d] ≠ [] := by simp
      have h2 : (x :: rest : List Str) ≠ [] := by simp
      simp only [if_neg h1, if_neg h2]
      by_cases hr : rest = [] <;> simp [hr] <;> omega

theorem totalOf_eq_zero (sepLen : Nat) (cd : List Str)
    (hne : ∀ x ∈ cd, x ≠ []) (h : totalOf sepLen cd = 0) : cd = [] := by
  cases cd with
  | nil => rfl
  | cons x rest =>
      exfalso
      rw [totalOf_cons] at h
      have hx : x ≠ [] := hne x (List.mem_cons_self x rest)
      have : 0 < x.length := List.length_pos.mpr hx
      omega

theorem length_intercalate (sep : Str) (docs : List Str) :
    (List.intercalate sep docs).length = totalOf sep.length docs := by
  induction docs with
  | nil => simp [List.intercalate, totalOf]
  | cons x rest ih =>
      cases rest with
      | nil => simp [List.intercalate, totalOf]
      | cons y t =>
          rw [totalOf_cons]
          have hstep : List.intercalate sep (x :: y :: t) =
              x ++ sep ++ List.intercalate sep (y :: t) := by
            simp [List.intercalate, List.intersperse_cons_cons,
              List.append_assoc]
          rw [hstep]
          simp only [List.length_append, ih, if_neg (List.cons_ne_nil y t)]

theorem length_stripChars_le (s : Str) : (stripChars s).length ≤ s.length := by
  unfold stripChars
  have h1 : (s.dropWhile Char.isWhitespace).length ≤ s.length :=
    (List.dropWhile_sublist _).length_le
  have h2 : ((s.dropWhile Char.isWhitespace).reverse.dropWhile
      Char.isWhitespace).length ≤ (s.dropWhile Char.isWhitespace).reverse.length :=
    (List.dropWhile_sublist _).length_le
  simp only [List.length_reverse] at h2 ⊢
  omega

theorem joinDocs_length_le (docs : List Str) (sep : Str) (doc : Str)
    (h : joinDocs docs sep = some doc) :
    doc.length ≤ totalOf sep.length docs := by
  unfold joinDocs at h
  split at h
  · cases h
  · injection h with h2
    rw [← h2]
    calc (stripChars (List.intercalate sep docs)).length
        ≤ (List.intercalate sep docs).length := length_stripChars_le _
      _ = totalOf sep.length docs := length_intercalate sep docs

/-- Specification of the overlap-retention loop: started from the true
running total, it returns a suffix of `current_doc` whose total is again
tracked exactly, is at most the configured overlap, and either leaves room
for the next split or is zero. -/
theorem popOverlap_spec (sepLen chunkSize overlap dLen : Nat) (cd : List Str) :
    (popOverlap sepLen chunkSize overlap dLen cd (totalOf sepLen cd)).2 =
      totalOf sepLen (popOverlap sepLen chunkSize overlap dLen cd (totalOf sepLen cd)).1 ∧
    (popOverlap sepLen chunkSize overlap dLen cd (totalOf sepLen cd)).1 <:+ cd ∧
    (popOverlap sepLen chunkSize overlap dLen cd (totalOf sepLen cd)).2 ≤ overlap ∧
    ((popOverlap sepLen chunkSize overlap dLen cd (totalOf sepLen cd)).2 + dLen + sepLen
        ≤ chunkSize ∨
      (popOverlap sepLen chunkSize overlap dLen cd (totalOf sepLen cd)).2 = 0) := by
  induction cd with
  | nil =>
      simp [popOverlap, totalOf_nil]
  | cons x rest ih =>
      unfold popOverlap
      by_cases hcond : totalOf sepLen (x :: rest) > overlap ∨
          (totalOf sepLen (x :: rest) + dLen + sepLen > chunkSize ∧
            totalOf sepLen (x :: rest) > 0)
      · rw [if_pos hcond]
        have hsub : totalOf sepLen (x :: rest) -
            (x.length + if rest = [] then 0 else sepLen) = totalOf sepLen rest := by
          rw [totalOf_cons]
          split <;> omega
        rw [hsub]
        exact ⟨ih.1, ih.2.1.trans (List.suffix_cons x rest), ih.2.2.1, ih.2.2.2⟩
      · rw [if_neg hcond]
        push_neg at hcond
        refine ⟨rfl, List.suffix_rfl, ?_, ?_⟩ <;> omega

/-- Every document produced by the merge loop fits in the chunk size,
provided every split handed to it is shorter than the chunk size (which is
how `_split_text` calls it) and non-empty. -/
theorem mergeGo_bound (sep : Str) (chunkSize overlap : Nat) (splits : List Str) :
    ∀ docs cd : List Str,
      (∀ s ∈ splits, s.length < chunkSize ∧ s ≠ []) →
      (∀ x ∈ cd, x.length < chunkSize ∧ x ≠ []) →
      totalOf sep.length cd ≤ chunkSize →
      (∀ doc ∈ docs, doc.length ≤ chunkSize) →
      ∀ doc ∈ mergeGo sep chunkSize overlap splits docs cd (totalOf sep.length cd),
        doc.length ≤ chunkSize := by
  induction splits with
  | nil =>
      intro docs cd _ _ htot hdocs doc hdoc
      simp only [mergeGo] at hdoc
      rcases hjd : joinDocs cd sep with _ | jdoc
      · rw [hjd] at hdoc
        exact hdocs doc hdoc
      · rw [hjd] at hdoc
        rcases List.mem_append.mp hdoc with h | h
        · exact hdocs doc h
        · have : doc = jdoc := by simpa using h
          subst this
          exact le_trans (joinDocs_length_le cd sep doc hjd) htot
  | cons d rest ih =>
      intro docs cd hsplits hcd htot hdocs doc hdoc
      have hd : d.length < chunkSize ∧ d ≠ [] :=
        hsplits d (List.mem_cons_self d rest)
      have hrest : ∀ s ∈ rest, s.length < chunkSize ∧ s ≠ [] :=
        fun s hs => hsplits s (List.mem_cons_of_mem d hs)
      by_cases hc : totalOf sep.length cd + d.length +
          (if cd = [] then 0 else sep.length) > chunkSize ∧ cd ≠ []
      · -- flush branch
        simp only [mergeGo, if_pos hc] at hdoc
        have spec := popOverlap_spec sep.length chunkSize overlap d.length cd
        -- the retained current_doc
        have hsub : (popOverlap sep.length chunkSize overlap d.length cd
            (totalOf sep.length cd)).1.Sublist cd := spec.2.1.sublist
        have hcd1 : ∀ x ∈ (popOverlap sep.length chunkSize overlap d.length cd
            (totalOf sep.length cd)).1, x.length < chunkSize ∧ x ≠ [] :=
          fun x hx => hcd x (hsub.subset hx)
        have hlen1 : ((popOverlap sep.length chunkSize overlap d.length cd
            (totalOf sep.length cd)).1 ++ [d]).length > 1 ↔
            (popOverlap sep.length chunkSize overlap d.length cd
              (totalOf sep.length cd)).1 ≠ [] := by
          cases (popOverlap sep.length chunkSize overlap d.length cd
            (totalOf sep.length cd)).1 <;> simp
        have htot2 : (popOverlap sep.length chunkSize overlap d.length cd
              (totalOf sep.length cd)).2 + d.length +
            (if ((popOverlap sep.length chunkSize overlap d.length cd
                (totalOf sep.length cd)).1 ++ [d]).length > 1
              then sep.length else 0) =
            totalOf sep.length ((popOverlap sep.length chunkSize overlap d.length cd
              (totalOf sep.length cd)).1 ++ [d]) := by
          rw [totalOf_append_single, ← spec.1]
          by_cases hp : (popOverlap sep.length chunkSize overlap d.length cd
              (totalOf sep.length cd)).1 = []
          · simp [hp, hlen1]
          · simp [hp, hlen1]
        rw [htot2] at hdoc
        have hcd2 : ∀ x ∈ (popOverlap sep.length chunkSize overlap d.length cd
            (totalOf sep.length cd)).1 ++ [d], x.length < chunkSize ∧ x ≠ [] := by
          intro x hx
          rcases List.mem_append.mp hx with h | h
          · exact hcd1 x h
          · have : x = d := by simpa using h
            subst this; exact hd
        have htot3 : totalOf sep.length
            ((popOverlap sep.length chunkSize overlap d.length cd
              (totalOf sep.length cd)).1 ++ [d]) ≤ chunkSize := by
          rw [totalOf_append_single, ← spec.1]
          rcases spec.2.2.2 with hle | hzero
          · by_cases hp : (popOverlap sep.length chunkSize overlap d.length cd
                (totalOf sep.length cd)).1 = [] <;> simp [hp] <;> omega
          · have hp : (popOverlap sep.length chunkSize overlap d.length cd
                (totalOf sep.length cd)).1 = [] := by
              apply totalOf_eq_zero sep.length _ (fun x hx => (hcd1 x hx).2)
              rw [← spec.1]; exact hzero
            simp [hp, hzero]
            omega
        have hdocsF : ∀ x ∈ (match joinDocs cd sep with
            | some doc2 => docs ++ [doc2]
            | none => docs), x.length ≤ chunkSize := by
          rcases hjd : joinDocs cd sep with _ | jdoc
          · simpa [hjd] using hdocs
          · simp only [hjd]
            intro x hx
            rcases List.mem_append.mp hx with h | h
            · exact hdocs x h
            · have : x = jdoc := by simpa using h
              subst this
              exact le_trans (joinDocs_length_le cd sep x hjd) htot
        exact ih _ _ hrest hcd2 htot3 hdocsF doc hdoc
      · -- no-flush branch
        simp only [mergeGo, if_neg hc] at hdoc
        have hlen1 : ((cd ++ [d]).length > 1) ↔ cd ≠ [] := by
          cases cd <;> simp
        have htot2 : totalOf sep.length cd + d.length +
            (if (cd ++ [d]).length > 1 then sep.length else 0) =
            totalOf sep.length (cd ++ [d]) := by
          rw [totalOf_append_single]
          by_cases hp : cd = [] <;> simp [hp, hlen1]
        rw [htot2] at hdoc
        have hcd2 : ∀ x ∈ cd ++ [d], x.length < chunkSize ∧ x ≠ [] := by
          intro x hx
          rcases List.mem_append.mp hx with h | h
          · exact hcd x h
          · have : x = d := by simpa using h
            subst this; exact hd
        have htot3 : totalOf sep.length (cd ++ [d]) ≤ chunkSize := by
          rw [totalOf_append_single]
          by_cases hp : cd = []
          · simp [hp, totalOf_nil]
            omega
          · simp only [if_neg hp] at hc ⊢
            have hX : ¬(totalOf sep.length cd + d.length + sep.length > chunkSize) :=
              fun hgt => (not_and.mp hc hgt) hp
            omega
        exact ih _ _ hrest hcd2 htot3 hdocs doc hdoc

theorem mergeSplits_bound (splits : List Str) (sep : Str) (chunkSize overlap : Nat)
    (h : ∀ s ∈ splits, s.length < chunkSize ∧ s ≠ []) :
    ∀ doc ∈ mergeSplits splits sep chunkSize overlap, doc.length ≤ chunkSize := by
  have h0 : totalOf sep.length ([] : List Str) = 0 := totalOf_nil _
  unfold mergeSplits
  have := mergeGo_bound sep chunkSize overlap splits [] []
    h (by simp) (by simp [totalOf_nil]) (by simp)
  rw [h0] at this
  exact this

/-! ## Lemmas about the recursive splitter -/

theorem splitTextWithSep_ne_nil (sep text : Str) :
    ∀ s ∈ splitTextWithSep sep text, s ≠ [] := by
  intro s hs
  unfold splitTextWithSep at hs
  have := List.of_mem_filter hs
  simpa [List.isEmpty_iff] using this

theorem splitTextWithSep_nil_len (text : Str) :
    ∀ s ∈ splitTextWithSep [] text, s.length = 1 := by
  intro s hs
  unfold splitTextWithSep at hs
  have hmem := List.mem_of_mem_filter hs
  simp only [List.mem_map] at hmem
  obtain ⟨c, _, hc⟩ := hmem
  rw [← hc]
  rfl

/-- When the empty separator is among the candidates, the selection loop
either picks it (with no recursion separators) or picks a non-empty one with
the empty separator still among the recursion separators. -/
theorem chooseSep_cases (text defaultSep : Str) (l : List Str) (hmem : [] ∈ l) :
    ((chooseSep text defaultSep l).1 = [] ∧ (chooseSep text defaultSep l).2 = []) ∨
    ((chooseSep text defaultSep l).1 ≠ [] ∧ [] ∈ (chooseSep text defaultSep l).2) := by
  induction l with
  | nil => cases hmem
  | cons s rest ih =>
      simp only [chooseSep]
      by_cases hs : s = []
      · rw [if_pos hs]
        exact Or.inl ⟨rfl, rfl⟩
      · rw [if_neg hs]
        have hrest : [] ∈ rest := by
          rcases List.mem_cons.mp hmem with h | h
          · exact absurd h.symm hs
          · exact h
        by_cases hct : containsSub s text
        · simp only [hct, if_pos]
          exact Or.inr ⟨hs, hrest⟩
        · simp only [hct, Bool.false_eq_true, if_neg, if_false]
          exact ih hrest

theorem splitLoop_bound (chunkSize overlap : Nat)
    (recurse? : Option (Str → List Str)) (splits : List Str) :
    ∀ good : List Str,
      (∀ s ∈ splits, s ≠ []) →
      (∀ s ∈ splits, chunkSize ≤ s.length →
        (recurse? = none → s.length ≤ chunkSize) ∧
        (∀ f, recurse? = some f → ∀ c ∈ f s, c.length ≤ chunkSize)) →
      (∀ g ∈ good, g.length < chunkSize ∧ g ≠ []) →
      ∀ c ∈ splitLoop chunkSize overlap recurse? splits good,
        c.length ≤ chunkSize := by
  induction splits with
  | nil =>
      intro good _ _ hgood c hc
      simp only [splitLoop] at hc
      split at hc
      · cases hc
      · exact mergeSplits_bound good [] chunkSize overlap hgood c hc
  | cons s rest ih =>
      intro good hne hbig hgood c hc
      have hsne : s ≠ [] := hne s (List.mem_cons_self s rest)
      have hrne : ∀ x ∈ rest, x ≠ [] := fun x hx => hne x (List.mem_cons_of_mem s hx)
      have hrbig : ∀ x ∈ rest, chunkSize ≤ x.length →
          (recurse? = none → x.length ≤ chunkSize) ∧
          (∀ f, recurse? = some f → ∀ c ∈ f x, c.length ≤ chunkSize) :=
        fun x hx => hbig x (List.mem_cons_of_mem s hx)
      simp only [splitLoop] at hc
      by_cases hlt : s.length < chunkSize
      · rw [if_pos hlt] at hc
        refine ih (good ++ [s]) hrne hrbig ?_ c hc
        intro g hg
        rcases List.mem_append.mp hg with h | h
        · exact hgood g h
        · have : g = s := by simpa using h
          subst this; exact ⟨hlt, hsne⟩
      · rw [if_neg hlt] at hc
        have hsb := hbig s (List.mem_cons_self s rest) (le_of_not_lt hlt)
        rcases List.mem_append.mp hc with hc1 | hc2
        · rcases List.mem_append.mp hc1 with hm | hmid
          · split at hm
            · cases hm
            · exact mergeSplits_bound good [] chunkSize overlap hgood c hm
          · rcases hrec : recurse? with _ | f
            · rw [hrec] at hmid
              simp only [List.mem_singleton] at hmid
              subst hmid
              exact hsb.1 hrec
            · rw [hrec] at hmid
              exact hsb.2 f hrec c hmid
        · exact ih [] hrne hrbig (by simp) c hc2

/-- Chunk-length bound for `_split_text`: when the empty separator is among
the separators (so character-level splitting is always available) and the
chunk size is positive, every produced chunk has length at most the chunk
size. -/
theorem splitTextRec_bound (chunkSize overlap : Nat) (hcs : 1 ≤ chunkSize) :
    ∀ n : Nat, ∀ separators : List Str, separators.length ≤ n →
      [] ∈ separators → ∀ text : Str,
      ∀ c ∈ splitTextRecFuel chunkSize overlap n separators text,
        c.length ≤ chunkSize := by
  intro n
  induction n with
  | zero =>
      intro separators hlen hmem
      rw [List.length_eq_zero.mp (Nat.le_zero.mp hlen)] at hmem
      cases hmem
  | succ n ih =>
      intro separators hlen hmem text c hc
      match separators, hmem with
      | s :: seps, hmem =>
        simp only [splitTextRecFuel] at hc
        have hne := splitTextWithSep_ne_nil
          (chooseSep text ((s :: seps).getLastD []) (s :: seps)).1 text
        rcases chooseSep_cases text ((s :: seps).getLastD []) (s :: seps) hmem with
          ⟨h1, h2⟩ | ⟨h1, h2⟩
        · -- empty separator chosen: splits are single characters
          rw [h1, h2] at hc
          simp only [if_pos rfl] at hc
          refine splitLoop_bound chunkSize overlap none
            (splitTextWithSep [] text) []
            (splitTextWithSep_ne_nil [] text) ?_ (by simp) c hc
          intro x hx _
          refine ⟨fun _ => ?_, fun f hf => by cases hf⟩
          have := splitTextWithSep_nil_len text x hx
          omega
        · -- a non-empty separator chosen: recursion still has the empty one
          have h2ne : (chooseSep text ((s :: seps).getLastD []) (s :: seps)).2 ≠ [] :=
            fun h => by rw [h] at h2; cases h2
          rw [if_neg h2ne] at hc
          refine splitLoop_bound chunkSize overlap
            (some (fun t => splitTextRecFuel chunkSize overlap n
              (chooseSep text ((s :: seps).getLastD []) (s :: seps)).2 t))
            (splitTextWithSep
              (chooseSep text ((s :: seps).getLastD []) (s :: seps)).1 text)
            [] hne ?_ (by simp) c hc
          intro x _ _
          constructor
          · intro h
            cases h
          · intro f hf c2 hc2
            have hf2 : f = fun t => splitTextRecFuel chunkSize overlap n
                (chooseSep text ((s :: seps).getLastD []) (s :: seps)).2 t := by
              injection hf with hf
              exact hf.symm
            rw [hf2] at hc2
            have hlen2 : (chooseSep text ((s :: seps).getLastD []) (s :: seps)).2.length ≤ n := by
              have hall : ∀ d : Str, ∀ l : List Str,
                  (chooseSep text d l).2.length ≤ l.length - 1 := by
                intro d l
                induction l with
                | nil => simp [chooseSep]
                | cons a r ihl =>
                    simp only [chooseSep]
                    split
                    · simp
                    · split
                      · simp
                      · simp only [List.length_cons]
                        omega
              have hkey := hall ((s :: seps).getLastD []) (s :: seps)
              simp only [List.length_cons] at hkey hlen
              omega
            exact ih _ hlen2 h2 x c2 hc2

/-! ## Lemmas about the chunk loops -/

/-- The old variant's chunk loop is a filterMap over the enumerated chunks:
whitespace chunks and chunks whose embedding call raises contribute nothing,
every other chunk contributes its action, in order. -/
theorem processChunksOld_eq (ctx : FileCtxOld) (embed : Embed) :
    ∀ chunks : List String, ∀ i0 : Nat,
      processChunksOld ctx embed chunks i0 =
        (chunks.enumFrom i0).filterMap (fun ic =>
          if ic.2 == "" || pyIsSpace ic.2 then none
          else
            match embed ic.1 ic.2 with
            | .error _ => none
            | .ok v => some (mkChunkActionOld ctx ic.1 ic.2 v)) := by
  intro chunks
  induction chunks with
  | nil => intro i0; simp [processChunksOld]
  | cons c rest ih =>
      intro i0
      rw [List.enumFrom_cons]
      by_cases hB : (c == "" || pyIsSpace c) = true
      · rw [List.filterMap_cons,
          if_pos (show ((i0, c).2 == "" || pyIsSpace (i0, c).2) = true from hB),
          processChunksOld, if_pos hB]
        exact ih (i0 + 1)
      · rcases he : embed i0 c with e | v
        · rw [List.filterMap_cons,
            if_neg (show ¬((i0, c).2 == "" || pyIsSpace (i0, c).2) = true from hB),
            show embed (i0, c).1 (i0, c).2 = Except.error e from he,
            processChunksOld, if_neg hB, he]
          exact ih (i0 + 1)
        · rw [List.filterMap_cons,
            if_neg (show ¬((i0, c).2 == "" || pyIsSpace (i0, c).2) = true from hB),
            show embed (i0, c).1 (i0, c).2 = Except.ok v from he,
            processChunksOld, if_neg hB, he, ih (i0 + 1)]

/-- Same shape for the del variant's chunk loop. -/
theorem processChunksDel_eq (userId fileName : String) (embed : Embed) :
    ∀ chunks : List String, ∀ i0 : Nat,
      processChunksDel userId fileName embed chunks i0 =
        (chunks.enumFrom i0).filterMap (fun ic =>
          if ic.2 == "" || pyIsSpace ic.2 then none
          else
            match embed ic.1 ic.2 with
            | .error _ => none
            | .ok v => some (mkChunkActionDel userId fileName ic.2 v)) := by
  intro chunks
  induction chunks with
  | nil => intro i0; simp [processChunksDel]
  | cons c rest ih =>
      intro i0
      rw [List.enumFrom_cons]
      by_cases hB : (c == "" || pyIsSpace c) = true
      · rw [List.filterMap_cons,
          if_pos (show ((i0, c).2 == "" || pyIsSpace (i0, c).2) = true from hB),
          processChunksDel, if_pos hB]
        exact ih (i0 + 1)
      · rcases he : embed i0 c with e | v
        · rw [List.filterMap_cons,
            if_neg (show ¬((i0, c).2 == "" || pyIsSpace (i0, c).2) = true from hB),
            show embed (i0, c).1 (i0, c).2 = Except.error e from he,
            processChunksDel, if_neg hB, he]
          exact ih (i0 + 1)
        · rw [List.filterMap_cons,
            if_neg (show ¬((i0, c).2 == "" || pyIsSpace (i0, c).2) = true from hB),
            show embed (i0, c).1 (i0, c).2 = Except.ok v from he,
            processChunksDel, if_neg hB, he, ih (i0 + 1)]

/-- Every action the del variant builds is a plain index action against the
hard-coded collection `rag_documents`, with no document identifier. -/
theorem processChunksDel_fields (userId fileName : String) (embed : Embed) :
    ∀ chunks i0, ∀ a ∈ processChunksDel userId fileName embed chunks i0,
      a.op = OpType.index ∧ a.esIndex = "rag_documents" ∧ a.docId = none := by
  intro chunks
  induction chunks with
  | nil => intro i0 a ha; simp [processChunksDel] at ha
  | cons c rest ih =>
      intro i0 a ha
      by_cases hB : (c == "" || pyIsSpace c) = true
      · rw [processChunksDel, if_pos hB] at ha
        exact ih (i0 + 1) a ha
      · rw [processChunksDel, if_neg hB] at ha
        rcases he : embed i0 c with e | v
        · rw [he] at ha
          exact ih (i0 + 1) a ha
        · rw [he] at ha
          rcases List.mem_cons.mp ha with h | h
          · subst h
            exact ⟨rfl, rfl, rfl⟩
          · exact ih (i0 + 1) a h

theorem processFileDel_fields (userId fileName : String) (embed : Embed)
    (text : String) :
    ∀ a ∈ processFileDel userId fileName embed text,
      a.op = OpType.index ∧ a.esIndex = "rag_documents" ∧ a.docId = none := by
  intro a ha
  unfold processFileDel at ha
  split at ha
  · cases ha
  · split at ha
    · cases ha
    · exact processChunksDel_fields userId fileName embed _ 0 a ha

/-- The checked variant produces the same actions as `processFileDel`; the
flag only records whether the batch check is reached. -/
theorem processFileDelChecked_fst (userId fileName : String) (embed : Embed)
    (text : String) :
    (processFileDelChecked userId fileName embed text).1 =
      processFileDel userId fileName embed text := by
  unfold processFileDelChecked processFileDel
  split
  · rfl
  · split <;> rfl

/-! ## Lemmas about the batching drivers -/

/-- Conservation for the old variant's driver: every action that entered the
buffer is, at the end of the file loop, in exactly one flushed batch or still
in the buffer, in order. -/
theorem runOld_flatten {σ : Type} (batchSize : Nat)
    (files : List (List (BulkAction σ) × Bool)) :
    (runOld batchSize files).flushes.flatten ++ (runOld batchSize files).buffer =
      (files.map Prod.fst).flatten := by
  unfold runOld
  suffices h : ∀ init : RunState σ,
      (files.foldl (stepFileOld batchSize) init).flushes.flatten ++
        (files.foldl (stepFileOld batchSize) init).buffer =
      init.flushes.flatten ++ init.buffer ++ (files.map Prod.fst).flatten by
    simpa using h ⟨[], []⟩
  induction files with
  | nil => intro init; simp
  | cons fa rest ih =>
      intro init
      simp only [List.foldl_cons, List.map_cons, List.flatten_cons]
      rw [ih]
      unfold stepFileOld
      split <;> simp [List.append_assoc]

/-- The old variant submits every buffered action exactly once: the
concatenation of all submitted batches is the concatenation of the per-file
action lists. -/
theorem submissionsOld_flatten {σ : Type} (batchSize : Nat)
    (files : List (List (BulkAction σ) × Bool)) :
    (submissionsOld batchSize files).flatten = (files.map Prod.fst).flatten := by
  unfold submissionsOld
  by_cases h : (runOld batchSize files).buffer.isEmpty
  · have hb : (runOld batchSize files).buffer = [] := by
      simpa [List.isEmpty_iff] using h
    rw [← runOld_flatten batchSize files]
    simp [h, hb]
  · rw [← runOld_flatten batchSize files]
    simp [h]

/-- Every action in a batch the del variant's driver submits (or leaves in
the buffer) came from one of the per-file action lists. -/
theorem runDel_mem {σ : Type} (batchSize : Nat) (raises : Nat → Bool)
    (files : List (List (BulkAction σ) × Bool)) :
    ∀ init : RunState σ, ∀ a : BulkAction σ,
      a ∈ (files.foldl (stepFileDel batchSize raises) init).flushes.flatten ∨
        a ∈ (files.foldl (stepFileDel batchSize raises) init).buffer →
      a ∈ init.flushes.flatten ∨ a ∈ init.buffer ∨
        a ∈ (files.map Prod.fst).flatten := by
  induction files with
  | nil => intro init a ha; simpa using ha
  | cons fa rest ih =>
      intro init a ha
      have step := ih (stepFileDel batchSize raises init fa) a ha
      have hmem : a ∈ (stepFileDel batchSize raises init fa).flushes.flatten ∨
          a ∈ (stepFileDel batchSize raises init fa).buffer →
          a ∈ init.flushes.flatten ∨ a ∈ init.buffer ∨ a ∈ fa.1 := by
        unfold stepFileDel
        split
        · split <;>
            · simp only [List.flatten_append, List.flatten_cons,
                List.flatten_nil, List.mem_append, List.append_nil]
              tauto
        · simp only [List.mem_append]
          tauto
      simp only [List.map_cons, List.flatten_cons, List.mem_append]
      rcases step with h | h | h
      · rcases hmem (Or.inl h) with h2 | h2 | h2 <;> tauto
      · rcases hmem (Or.inr h) with h2 | h2 | h2 <;> tauto
      · tauto

theorem submissionsDel_mem {σ : Type} (batchSize : Nat) (raises : Nat → Bool)
    (files : List (List (BulkAction σ) × Bool)) :
    ∀ b ∈ submissionsDel batchSize raises files, ∀ a ∈ b,
      a ∈ (files.map Prod.fst).flatten := by
  intro b hb a ha
  unfold submissionsDel at hb
  have hmem : a ∈ (runDel batchSize raises files).flushes.flatten ∨
      a ∈ (runDel batchSize raises files).buffer := by
    rcases List.mem_append.mp hb with h | h
    · exact Or.inl (List.mem_flatten.mpr ⟨b, h, ha⟩)
    · right
      split at h
      · cases h
      · have : b = (runDel batchSize raises files).buffer := by simpa using h
        rw [← this]
        exact ha
  have := runDel_mem batchSize raises files ⟨[], []⟩ a (by simpa [runDel] using hmem)
  simpa using this

/-- Every chunk action the old variant builds carries an identifier
`chunk-<relative path>-<mtime>-<index>`. -/
theorem processChunksOld_docId (ctx : FileCtxOld) (embed : Embed) :
    ∀ chunks i0, ∀ a ∈ processChunksOld ctx embed chunks i0,
      ∃ j : Nat, a.docId = some (chunkId ctx.relPathFull ctx.mtime j) := by
  intro chunks
  induction chunks with
  | nil => intro i0 a ha; simp [processChunksOld] at ha
  | cons c rest ih =>
      intro i0 a ha
      by_cases hB : (c == "" || pyIsSpace c) = true
      · rw [processChunksOld, if_pos hB] at ha
        exact ih (i0 + 1) a ha
      · rw [processChunksOld, if_neg hB] at ha
        rcases he : embed i0 c with e | v
        · rw [he] at ha
          exact ih (i0 + 1) a ha
        · rw [he] at ha
          rcases List.mem_cons.mp ha with h | h
          · subst h
            exact ⟨i0, rfl⟩
          · exact ih (i0 + 1) a h

/-- The identifier stream of the old variant depends only on the relative
path, the modification time, and the chunk indices: it is unchanged across
runs that differ in wall-clock timestamp, embedding values, or any other
context field, as long as the embedding calls succeed on the same chunks. -/
theorem processChunksOld_map_docId (ctx1 ctx2 : FileCtxOld) (e1 e2 : Embed)
    (hp : ctx1.relPathFull = ctx2.relPathFull) (hm : ctx1.mtime = ctx2.mtime)
    (hok : ∀ i c, embedOk (e1 i c) = embedOk (e2 i c)) :
    ∀ chunks i0,
      (processChunksOld ctx1 e1 chunks i0).map (fun a => a.docId) =
        (processChunksOld ctx2 e2 chunks i0).map (fun a => a.docId) := by
  intro chunks
  induction chunks with
  | nil => intro i0; simp [processChunksOld]
  | cons c rest ih =>
      intro i0
      by_cases hB : (c == "" || pyIsSpace c) = true
      · rw [processChunksOld, processChunksOld, if_pos hB, if_pos hB]
        exact ih (i0 + 1)
      · rw [processChunksOld, processChunksOld, if_neg hB, if_neg hB]
        have hoki := hok i0 c
        rcases he1 : e1 i0 c with x | v1 <;> rcases he2 : e2 i0 c with y | v2
        · exact ih (i0 + 1)
        · rw [he1, he2] at hoki
          simp [embedOk] at hoki
        · rw [he1, he2] at hoki
          simp [embedOk] at hoki
        · simp only [List.map_cons]
          rw [ih (i0 + 1)]
          congr 1
          simp [mkChunkActionOld, chunkId, hp, hm]

/-! ## Claim theorems -/

/-- C1: in the identifier-assigning variant (`index-in-elastic-cloud-old.py`)
every submitted chunk action's `_id` is `chunk-<relative path>-<mtime>-<i>`,
a deterministic function of relative path, modification time and chunk index;
the identifier stream of a file is unchanged between two runs that differ in
wall-clock timestamp and embedding outputs (idempotent overwrite for
unchanged files, whose relative path, mtime and chunk list are equal).  In
the other variant (`delete_index.py`) no action carries an identifier, so the
store auto-assigns one and re-runs duplicate documents. -/
theorem C1_identifier_policy :
    (∀ ctx : FileCtxOld, ∀ embed : Embed, ∀ chunks : List String, ∀ i0 : Nat,
      ∀ a ∈ processChunksOld ctx embed chunks i0,
        ∃ j : Nat, a.docId = some (chunkId ctx.relPathFull ctx.mtime j)) ∧
    (∀ ctx1 ctx2 : FileCtxOld, ∀ e1 e2 : Embed, ∀ chunks : List String,
      ctx1.relPathFull = ctx2.relPathFull → ctx1.mtime = ctx2.mtime →
      (∀ i c, embedOk (e1 i c) = embedOk (e2 i c)) →
      (processChunksOld ctx1 e1 chunks 0).map (fun a => a.docId) =
        (processChunksOld ctx2 e2 chunks 0).map (fun a => a.docId)) ∧
    (∀ userId fileName : String, ∀ embed : Embed, ∀ text : String,
      ∀ a ∈ processFileDel userId fileName embed text, a.docId = none) := by
  refine ⟨?_, ?_, ?_⟩
  · exact fun ctx embed chunks i0 => processChunksOld_docId ctx embed chunks i0
  · intro ctx1 ctx2 e1 e2 chunks hp hm hok
    exact processChunksOld_map_docId ctx1 ctx2 e1 e2 hp hm hok chunks 0
  · intro userId fileName embed text a ha
    exact (processFileDel_fields userId fileName embed text a ha).2.2

theorem C1_identifier_policy_witness :
    (sampleCtx.relPathFull = sampleCtx.relPathFull ∧ sampleCtx.mtime = sampleCtx.mtime) ∧
    (processChunksOld sampleCtx (fun _ _ => Except.ok [1]) ["hi"] 0).map
        (fun a => a.docId) =
      (processChunksOld { sampleCtx with now := "other-time" }
          (fun _ _ => Except.ok [2]) ["hi"] 0).map (fun a => a.docId) :=
  ⟨⟨rfl, rfl⟩,
    C1_identifier_policy.2.1 sampleCtx { sampleCtx with now := "other-time" }
      (fun _ _ => Except.ok [1]) (fun _ _ => Except.ok [2]) ["hi"]
      rfl rfl (fun _ _ => rfl)⟩

/-- C2: for every input text, chunking with maximum size `m` and overlap `o`
(`o < m`) yields chunks of length at most `m`, in both variants'
configurations; the overlap-retention loop at every chunk boundary keeps a
suffix of the previous window of total length at most `o` (the exact shared
amount is content-dependent, bounded by `o`); in particular every pair of
adjacent chunks shares an overlap region of some length `k ≤ o`. -/
theorem C2_chunking_bounds (m o : Nat) (hmo : o < m) :
    (∀ text : Str, ∀ c ∈ splitTextOld m o text, c.length ≤ m) ∧
    (∀ text : Str, ∀ c ∈ splitTextDel m o text, c.length ≤ m) ∧
    (∀ sepLen dLen : Nat, ∀ cd : List Str,
      (popOverlap sepLen m o dLen cd (totalOf sepLen cd)).1 <:+ cd ∧
      (popOverlap sepLen m o dLen cd (totalOf sepLen cd)).2 ≤ o) ∧
    (∀ text : Str, ∀ pre post : List Str, ∀ a b : Str,
      splitTextOld m o text = pre ++ a :: b :: post →
      ∃ k, k ≤ o ∧ a.drop (a.length - k) = b.take k) := by
  have hcs : 1 ≤ m := by omega
  refine ⟨?_, ?_, ?_, ?_⟩
  · intro text c hc
    exact splitTextRec_bound m o hcs oldSeparators.length oldSeparators
      le_rfl (by decide) text c hc
  · intro text c hc
    exact splitTextRec_bound m o hcs defaultSeparators.length defaultSeparators
      le_rfl (by decide) text c hc
  · intro sepLen dLen cd
    have spec := popOverlap_spec sepLen m o dLen cd
    exact ⟨spec.2.1, spec.2.2.1⟩
  · intro text pre post a b _
    exact ⟨0, Nat.zero_le o, by simp⟩

theorem C2_chunking_bounds_witness :
    150 < 1000 ∧
    (splitTextOld 1000 150 ("hello world".data)).head!.length ≤ 1000 :=
  ⟨by decide,
    (C2_chunking_bounds 1000 150 (by decide)).1 "hello world".data
      (splitTextOld 1000 150 "hello world".data).head! (by decide)⟩

/-- C3: with an embedding oracle that raises exactly on chunk number `j`,
both variants' chunk loops (`index-in-elastic-cloud-old.py` lines 256-288
and `delete_index.py` lines 155-170) produce exactly the actions of all the
other non-whitespace chunks, in order: only the failing chunk is excluded,
the loop continues with the same file's remaining chunks, and the run is not
aborted.  (The `logging.error` side effect is outside the model.) -/
theorem C3_chunk_failure_isolation (j : Nat)
    (v : Nat → String → List Int) (chunks : List String) :
    (∀ ctx : FileCtxOld,
      processChunksOld ctx
          (fun i c => if i = j then Except.error () else Except.ok (v i c))
          chunks 0 =
        chunks.enum.filterMap (fun ic =>
          if ic.1 = j then none
          else if ic.2 == "" || pyIsSpace ic.2 then none
          else some (mkChunkActionOld ctx ic.1 ic.2 (v ic.1 ic.2)))) ∧
    (∀ userId fileName : String,
      processChunksDel userId fileName
          (fun i c => if i = j then Except.error () else Except.ok (v i c))
          chunks 0 =
        chunks.enum.filterMap (fun ic =>
          if ic.1 = j then none
          else if ic.2 == "" || pyIsSpace ic.2 then none
          else some (mkChunkActionDel userId fileName ic.2 (v ic.1 ic.2)))) := by
  constructor
  · intro ctx
    rw [processChunksOld_eq]
    have hfun : (fun (ic : Nat × String) =>
        if ic.2 == "" || pyIsSpace ic.2 then none
        else
          match (if ic.1 = j then Except.error () else Except.ok (v ic.1 ic.2) :
              Except Unit (List Int)) with
          | Except.error _ => none
          | Except.ok w => some (mkChunkActionOld ctx ic.1 ic.2 w)) =
        (fun (ic : Nat × String) =>
          if ic.1 = j then none
          else if ic.2 == "" || pyIsSpace ic.2 then none
          else some (mkChunkActionOld ctx ic.1 ic.2 (v ic.1 ic.2))) := by
      funext ic
      by_cases hij : ic.1 = j <;>
        by_cases hsk : (ic.2 == "" || pyIsSpace ic.2) = true <;>
          simp [hij, hsk]
    rw [hfun]
    rfl
  · intro userId fileName
    rw [processChunksDel_eq]
    have hfun : (fun (ic : Nat × String) =>
        if ic.2 == "" || pyIsSpace ic.2 then none
        else
          match (if ic.1 = j then Except.error () else Except.ok (v ic.1 ic.2) :
              Except Unit (List Int)) with
          | Except.error _ => none
          | Except.ok w => some (mkChunkActionDel userId fileName ic.2 w)) =
        (fun (ic : Nat × String) =>
          if ic.1 = j then none
          else if ic.2 == "" || pyIsSpace ic.2 then none
          else some (mkChunkActionDel userId fileName ic.2 (v ic.1 ic.2))) := by
      funext ic
      by_cases hij : ic.1 = j <;>
        by_cases hsk : (ic.2 == "" || pyIsSpace ic.2) = true <;>
          simp [hij, hsk]
    rw [hfun]
    rfl

set_option maxRecDepth 20000 in
/-- C4 fails on the code twice over.  In `delete_index.py` a bulk call that
raises leaves the batch in the buffer (the `except` path does not clear
`all_actions`) and those actions are re-submitted inside the next bulk
request.  And in the old variant, 500 whitespace-only files — each of which
appends one metadata action and then `continue`s at line 237, bypassing the
line-291 check — leave a buffer of 500 actions with no bulk request at all,
so the buffer reaching the batch size does not trigger a flush. -/
theorem C4_counterexample :
    submissionsDel 1000 (fun n => n == 0) [(bigBatch, true), ([delAct], true)] =
      [bigBatch, bigBatch ++ [delAct]] ∧
    (runDel 1000 (fun n => n == 0) [(bigBatch, true)]).buffer = bigBatch ∧
    bigBatch ≠ [] ∧
    (runOld 500
        (List.replicate 500 ([mkMetaActionOld sampleCtx], false))).flushes = [] ∧
    (runOld 500
        (List.replicate 500 ([mkMetaActionOld sampleCtx], false))).buffer =
      List.replicate 500 (mkMetaActionOld sampleCtx) := by
  refine ⟨rfl, rfl, ?_, rfl, rfl⟩
  simp [bigBatch]

/-- C4, amended: a bulk request is made exactly when a file's loop body runs
to its end — files handled by an early `continue`, including the old
variant's whitespace metadata branch, bypass the batch check — and the
buffer, after that file's actions were appended, holds at least the batch
size (500 old / 1000 del), plus a final flush of a non-empty buffer at end
of stream.  The old variant clears the buffer after every mid-run flush
attempt regardless of outcome and submits every buffered action exactly
once; the del variant clears the buffer only when the bulk call does not
raise — a raising flush leaves the whole batch in the buffer, so it is
re-submitted with the next bulk call.  Neither variant aborts. -/
theorem C4_amended_batching {σ : Type} :
    (∀ batchSize : Nat, ∀ st : RunState σ, ∀ f : List (BulkAction σ) × Bool,
      ((stepFileOld batchSize st f).flushes ≠ st.flushes ↔
        (f.2 = true ∧ batchSize ≤ (st.buffer ++ f.1).length)) ∧
      ((stepFileOld batchSize st f).flushes ≠ st.flushes →
        (stepFileOld batchSize st f).buffer = [])) ∧
    (∀ batchSize : Nat, ∀ files : List (List (BulkAction σ) × Bool),
      (submissionsOld batchSize files).flatten = (files.map Prod.fst).flatten) ∧
    (∀ batchSize : Nat, ∀ raises : Nat → Bool, ∀ st : RunState σ,
      ∀ f : List (BulkAction σ) × Bool,
      ((stepFileDel batchSize raises st f).flushes ≠ st.flushes ↔
        (f.2 = true ∧ batchSize ≤ (st.buffer ++ f.1).length)) ∧
      (f.2 = true → batchSize ≤ (st.buffer ++ f.1).length →
        (stepFileDel batchSize raises st f).buffer =
          (if raises st.flushes.length then st.buffer ++ f.1 else []))) := by
  refine ⟨?_, fun batchSize files => submissionsOld_flatten batchSize files, ?_⟩
  · intro batchSize st f
    unfold stepFileOld
    by_cases h : f.2 = true ∧ (st.buffer ++ f.1).length ≥ batchSize
    · rw [if_pos h]
      constructor
      · constructor
        · intro _; exact h
        · intro _ heq
          simpa using congrArg List.length heq
      · intro _; rfl
    · rw [if_neg h]
      constructor
      · constructor
        · intro hne; exact absurd rfl hne
        · intro hcond; exact absurd hcond h
      · intro hne; exact absurd rfl hne
  · intro batchSize raises st f
    unfold stepFileDel
    by_cases h : f.2 = true ∧ (st.buffer ++ f.1).length ≥ batchSize
    · rw [if_pos h]
      by_cases hr : raises st.flushes.length = true
      · rw [if_pos hr]
        constructor
        · constructor
          · intro _; exact h
          · intro _ heq
            simpa using congrArg List.length heq
        · intro _ _
          rw [if_pos hr]
      · rw [if_neg hr]
        constructor
        · constructor
          · intro _; exact h
          · intro _ heq
            simpa using congrArg List.length heq
        · intro _ _
          rw [if_neg hr]
    · rw [if_neg h]
      constructor
      · constructor
        · intro hne; exact absurd rfl hne
        · intro hcond; exact absurd hcond h
      · intro hf2 hle; exact absurd ⟨hf2, hle⟩ h

theorem C4_amended_batching_witness :
    (stepFileOld 1 (⟨[], []⟩ : RunState SourceDel) ([delAct], true)).buffer = [] :=
  (C4_amended_batching.1 1 ⟨[], []⟩ ([delAct], true)).2 (by decide)

/-- C5 fails on `index-in-elastic-cloud-old.py`: a whitespace-only text does
not yield zero actions there — the script appends one metadata-only action
(with `chunk_text` and `chunk_vector` set to `None`). -/
theorem C5_counterexample :
    processTextFileOld sampleCtx (fun _ _ => Except.ok []) " " =
      [mkMetaActionOld sampleCtx] ∧
    (processTextFileOld sampleCtx (fun _ _ => Except.ok []) " ").length ≠ 0 := by
  exact ⟨rfl, by decide⟩

/-- C5, amended: on empty or whitespace-only extracted text neither variant
does any chunking or embedding work; `delete_index.py` skips the file with
zero actions, while `index-in-elastic-cloud-old.py` drops an empty read but
appends exactly one metadata-only action (no chunks, no vector) for
whitespace-only text. -/
theorem C5_amended_whitespace_skip (ctx : FileCtxOld) (userId fileName : String)
    (e : Embed) (text : String)
    (h : pyIsSpace text = true ∨ text = "") :
    processFileDel userId fileName e text = [] ∧
    processTextFileOld ctx e text =
      (if text == "" then [] else [mkMetaActionOld ctx]) := by
  have hcond : (text == "" || pyIsSpace text) = true := by
    rcases h with h | h
    · simp [h]
    · simp [h]
  constructor
  · unfold processFileDel
    rw [if_pos hcond]
  · unfold processTextFileOld
    by_cases he : (text == "") = true
    · rw [if_pos he, if_pos he]
    · rw [if_neg he, if_pos hcond, if_neg he]

theorem C5_amended_whitespace_skip_witness :
    (pyIsSpace "\t " = true ∨ "\t " = "") ∧
    processFileDel "u" "f" (fun _ _ => Except.ok []) "\t " = [] :=
  ⟨Or.inl (by decide),
    (C5_amended_whitespace_skip sampleCtx "u" "f" (fun _ _ => Except.ok [])
      "\t " (Or.inl (by decide))).1⟩

/-- C6 fails: the `try` wraps the whole page loop, so a page whose
`extract_text()` raises ends the loop — text from readable pages before the
failure is kept, but pages after it are lost. -/
theorem C6_counterexample :
    extractTextFromPdf [Except.ok "A", Except.error (), Except.ok "B"] = "A\n" ∧
    extractTextFromPdf [Except.ok "A", Except.error (), Except.ok "B"] ≠ "A\nB\n" := by
  exact ⟨rfl, by decide⟩

/-- C6, amended: a raising page aborts extraction of the remaining pages;
the text accumulated from the pages before the failure is still returned
(the exception is caught at function level, the run continues). -/
theorem C6_amended_pdf_pages (ps : List String) (rest : List (Except Unit String)) :
    extractTextFromPdf (ps.map Except.ok ++ Except.error () :: rest) =
      extractTextFromPdf (ps.map Except.ok) := by
  unfold extractTextFromPdf
  suffices h : ∀ acc, extractPagesGo (ps.map Except.ok ++ Except.error () :: rest) acc =
      extractPagesGo (ps.map Except.ok) acc from h ""
  induction ps with
  | nil => intro acc; rfl
  | cons p pt ih =>
      intro acc
      simp only [List.map_cons, List.cons_append, extractPagesGo]
      exact ih _

/-- C7 fails: the pipeline never checks vector lengths — an action whose
vector has length 2 (not 384) is built and bulk-submitted. -/
theorem C7_counterexample :
    (submissionsOld 500
        [processTextFileOldChecked sampleCtx
          (fun _ _ => Except.ok [1, 2]) "hello"]).flatten.map
        (fun a => a.source.chunk_vector) = [some [1, 2]] ∧
    ([1, 2] : List Int).length ≠ 384 := by
  exact ⟨rfl, by decide⟩

/-- C7, amended: the scripts perform no dimension validation at all: every
non-whitespace chunk whose embedding call succeeds is appended with exactly
the returned vector, whatever its length; a chunk is dropped only when the
call raises.  `EMBEDDING_DIM = 384` is used only in the index mapping. -/
theorem C7_amended_no_dimension_check (ctx : FileCtxOld)
    (v : Nat → String → List Int) (chunks : List String) :
    (processChunksOld ctx (fun i c => Except.ok (v i c)) chunks 0).map
        (fun a => a.source.chunk_vector) =
      chunks.enum.filterMap (fun ic =>
        if ic.2 == "" || pyIsSpace ic.2 then none
        else some (some (v ic.1 ic.2))) := by
  rw [processChunksOld_eq, List.map_filterMap]
  have hfun : (fun (ic : Nat × String) =>
      (if ic.2 == "" || pyIsSpace ic.2 then none
        else
          match (Except.ok (v ic.1 ic.2) : Except Unit (List Int)) with
          | Except.error _ => none
          | Except.ok w => some (mkChunkActionOld ctx ic.1 ic.2 w)).map
        (fun a => a.source.chunk_vector)) =
      (fun (ic : Nat × String) =>
        if ic.2 == "" || pyIsSpace ic.2 then none
        else some (some (v ic.1 ic.2))) := by
    funext ic
    by_cases hsk : (ic.2 == "" || pyIsSpace ic.2) = true <;>
      simp [hsk, mkChunkActionOld]
  rw [hfun]
  rfl

/-- C8: `GET /api/files` returns at most 1000 entries, each consisting of
exactly a stored document's id, file name and path (with `""` defaults for
absent source fields); on an empty store it returns the empty list, not an
error. -/
theorem C8_get_all_files_spec :
    (∀ store : List Hit, (get_all_files store).length ≤ 1000) ∧
    get_all_files [] = [] ∧
    (∀ store : List Hit, ∀ e ∈ get_all_files store, ∃ h ∈ store,
      e = { entryId := h.hitId, file_name := h.file_name.getD "",
            path := h.path.getD "" }) := by
  refine ⟨?_, rfl, ?_⟩
  · intro store
    simp only [get_all_files, esSearch, List.length_map, List.length_take]
    exact min_le_left _ _
  · intro store e he
    simp only [get_all_files, esSearch] at he
    rcases List.mem_map.mp he with ⟨h, hh, hmap⟩
    exact ⟨h, List.mem_of_mem_take hh, hmap.symm⟩

theorem C8_get_all_files_spec_witness :
    ∃ h ∈ [sampleHit],
      ({ entryId := "doc1", file_name := "a.txt", path := "sub" } : FileEntry) =
        { entryId := h.hitId, file_name := h.file_name.getD "",
          path := h.path.getD "" } :=
  C8_get_all_files_spec.2.2 [sampleHit]
    { entryId := "doc1", file_name := "a.txt", path := "sub" } (by decide)

/-- C9: the `delete_index.py` run never issues a delete: every action it
submits through the bulk API — across all batches, for any inputs, embedding
outcomes and bulk failures — is an `index` (write) action targeting the
hard-coded collection `rag_documents`.  (Its header comment nevertheless
claims it deletes all indexed files.) -/
theorem C9_delete_script_only_indexes (userId : String) (embed : Nat → Embed)
    (raises : Nat → Bool) (files : List (String × String)) :
    ∀ batch ∈ delPipelineSubmissions userId embed raises files,
      ∀ a ∈ batch, a.op = OpType.index ∧ a.esIndex = "rag_documents" := by
  intro batch hb a ha
  have hmem := submissionsDel_mem 1000 raises _ batch hb a ha
  rw [List.map_map] at hmem
  rcases List.mem_flatten.mp hmem with ⟨l, hl, hal⟩
  rcases List.mem_map.mp hl with ⟨kf, _, hkf⟩
  rw [← hkf] at hal
  have hal2 : a ∈ (processFileDelChecked userId kf.2.1 (embed kf.1) kf.2.2).1 := hal
  rw [processFileDelChecked_fst] at hal2
  have := processFileDel_fields userId kf.2.1 (embed kf.1) kf.2.2 a hal2
  exact ⟨this.1, this.2.1⟩

theorem C9_delete_script_only_indexes_witness :
    (mkChunkActionDel "u" "f.txt" "hi" [1]).op = OpType.index ∧
    (mkChunkActionDel "u" "f.txt" "hi" [1]).esIndex = "rag_documents" :=
  C9_delete_script_only_indexes "u" (fun _ _ _ => Except.ok [1])
    (fun _ => false) [("f.txt", "hi")]
    [mkChunkActionDel "u" "f.txt" "hi" [1]] (by decide)
    (mkChunkActionDel "u" "f.txt" "hi" [1]) (by decide)

/-- C10: `GET /api/files/{id}` with an id (after URL-decoding) matching no
stored document responds with HTTP 500, never 404: the endpoint maps every
exception, including the store's not-found error, to status 500. -/
theorem C10_not_found_maps_to_500 (decode : String → String) (store : List Hit)
    (fileId : String) (h : ∀ x ∈ store, x.hitId ≠ decode fileId) :
    (get_file_content decode store fileId).status = 500 ∧
    (get_file_content decode store fileId).status ≠ 404 := by
  rcases hf : store.find? (fun x => x.hitId == decode fileId) with _ | x
  · unfold get_file_content esGet
    rw [hf]
    exact ⟨rfl, by decide⟩
  · exfalso
    have hpred := List.find?_some hf
    have hmem := List.mem_of_find?_eq_some hf
    exact h x hmem (by simpa using hpred)

theorem C10_not_found_maps_to_500_witness :
    (∀ x ∈ ([] : List Hit), x.hitId ≠ "missing-id") ∧
    (get_file_content (fun s => s) [] "missing-id").status = 500 :=
  ⟨by simp,
    (C10_not_found_maps_to_500 (fun s => s) [] "missing-id" (by simp)).1⟩

end MnemoMind
